import Mathlib

/-!
Verification of the `grid` library (src/lib.rs): a 2d character grid with
coordinate access, flood fill, neighbour enumeration and text (de)serialization.

The Rust code is shallowly embedded: `Vec<char>` becomes `List Char`, `usize`
becomes `Nat` (the code's index arithmetic never overflows for any grid that
fits in memory, so machine-width wraparound is immaterial; the `as i32` round
trips in `neighbours` are guarded by `y > 0` / `x > 0` and hence are plain
subtraction), mutation becomes state passing, and operations that can panic
(`height()` divides by `width`; `neighbours` underflows `height - 1` on a
zero-height grid; `slice::chunks` rejects a zero chunk size; `Grid::from`
unwraps the first line) return `Option`, with `none` marking the panic.
-/

/-- The `Grid` struct from src/lib.rs: a flat row-major character buffer plus a
width.  `width` is the Rust field accessor `width()`. -/
structure Grid where
  tiles : List Char
  width : Nat
deriving Repr, DecidableEq

/-- Rust `Grid::filled_with(width, height, fill)`: `(0..width*height)` tiles all
equal to `fill`. -/
def Grid.filled_with (width height : Nat) (fill : Char) : Grid :=
  { tiles := List.replicate (width * height) fill, width := width }

/-- Rust `Grid::new(width, height)`: `filled_with` with the default `'#'`. -/
def Grid.new (width height : Nat) : Grid :=
  Grid.filled_with width height '#'

/-- Rust `Grid::height()`: `self.tiles.len() / self.width`.  Rust panics when
`width == 0`; Lean's `Nat` division returns 0 there, and every theorem that
relies on `height` supposes or entails `width ≥ 1`. -/
def Grid.height (g : Grid) : Nat :=
  g.tiles.length / g.width

/-- Rust `Grid::cord_to_pos(x, y)`: `pos = y * width + x`, `Some(pos)` iff
`pos < tiles.len()`. -/
def Grid.cord_to_pos (g : Grid) (x y : Nat) : Option Nat :=
  if y * g.width + x < g.tiles.length then some (y * g.width + x) else none

/-- Rust `Grid::get(x, y)`: the tile at `cord_to_pos`, else `None`.  (The Rust
index `self.tiles[pos]` cannot panic because `pos < tiles.len()` was checked,
so `getElem?` returns `some` on that branch.) -/
def Grid.get (g : Grid) (x y : Nat) : Option Char :=
  match g.cord_to_pos x y with
  | some pos => g.tiles[pos]?
  | none => none

/-- Rust `Grid::set(x, y, new_tile)`: writes through `cord_to_pos` and reports
whether the write happened.  Mutation is modeled by returning the new grid. -/
def Grid.set (g : Grid) (x y : Nat) (new_tile : Char) : Grid × Bool :=
  match g.cord_to_pos x y with
  | some pos => ({ tiles := g.tiles.set pos new_tile, width := g.width }, true)
  | none => (g, false)

/-- Rust `Grid::count(tile)`: number of buffer entries equal to `tile`. -/
def Grid.count (g : Grid) (tile : Char) : Nat :=
  g.tiles.countP (fun c => c == tile)

/-- The eight conditional pushes in the body of Rust `Grid::neighbours`, in
source order: up, right, down, left, down-right, up-right, up-left, down-left.
All subtractions are guarded exactly as in the source (`width ≥ 1` and
`height ≥ 1` hold whenever this function is reached, see `Grid.neighbours`). -/
def neighboursCore (width height x y : Nat) : List (Nat × Nat) :=
  (if 0 < y ∧ y < height then [(x, y - 1)] else []) ++
  (if x < width - 1 then [(x + 1, y)] else []) ++
  (if y < height - 1 then [(x, y + 1)] else []) ++
  (if 0 < x ∧ x < width then [(x - 1, y)] else []) ++
  (if x < width - 1 ∧ y < height - 1 then [(x + 1, y + 1)] else []) ++
  (if x < width - 1 ∧ 0 < y ∧ y < height then [(x + 1, y - 1)] else []) ++
  (if 0 < x ∧ 0 < y ∧ x < width ∧ y < height then [(x - 1, y - 1)] else []) ++
  (if 0 < x ∧ x < width ∧ y < height - 1 then [(x - 1, y + 1)] else [])

/-- Rust `Grid::neighbours(x, y)`.  The source first calls `self.height()`,
which panics when `width == 0` (first `none`); then returns early with an empty
vector when `x > width || y > height` (note: strictly greater, so `x == width`
and `y == height` fall through); otherwise it evaluates the eight pushes, the
third of which computes `height - 1` and hence underflows — a Rust program
error — when `height == 0` (second `none`). -/
def Grid.neighbours (g : Grid) (x y : Nat) : Option (List (Nat × Nat)) :=
  if g.width = 0 then none
  else if x > g.width ∨ y > g.height then some []
  else if g.height = 0 then none
  else some (neighboursCore g.width g.height x y)

/-- The push guard inside Rust `Grid::fill`:
`if let Some(c) = self.get(nx, ny) { if c != fill { push } }`. -/
def liveB (g : Grid) (c : Char) (q : Nat × Nat) : Bool :=
  match g.get q.1 q.2 with
  | some v => decide (v ≠ c)
  | none => false

/-- Bonus part of the flood-fill termination measure: zero exactly when the
stack's top entry still points at an unfilled tile. -/
def topBonus (c : Char) (g : Grid) : List (Nat × Nat) → Nat
  | [] => 10
  | q :: _ => if liveB g c q then 0 else 10

/-- Termination measure for the flood-fill work stack: 20 times the number of
buffer entries that still differ from the fill character, plus the stack size,
plus `topBonus`.  Each loop iteration strictly decreases it. -/
def stackMeasure (c : Char) (g : Grid) (stack : List (Nat × Nat)) : Nat :=
  20 * g.tiles.countP (fun t => decide (t ≠ c)) + stack.length + topBonus c g stack

theorem grid_eta (g : Grid) : ({ tiles := g.tiles, width := g.width } : Grid) = g := rfl

theorem length_pieces_le_one {α : Type} (P : Prop) [Decidable P] (a : α) :
    (if P then [a] else []).length ≤ 1 := by
  split <;> simp

theorem neighboursCore_length_le (w h x y : Nat) :
    (neighboursCore w h x y).length ≤ 8 := by
  unfold neighboursCore
  simp only [List.length_append]
  have h1 := length_pieces_le_one (0 < y ∧ y < h) (x, y - 1)
  have h2 := length_pieces_le_one (x < w - 1) (x + 1, y)
  have h3 := length_pieces_le_one (y < h - 1) (x, y + 1)
  have h4 := length_pieces_le_one (0 < x ∧ x < w) (x - 1, y)
  have h5 := length_pieces_le_one (x < w - 1 ∧ y < h - 1) (x + 1, y + 1)
  have h6 := length_pieces_le_one (x < w - 1 ∧ 0 < y ∧ y < h) (x + 1, y - 1)
  have h7 := length_pieces_le_one (0 < x ∧ 0 < y ∧ x < w ∧ y < h) (x - 1, y - 1)
  have h8 := length_pieces_le_one (0 < x ∧ x < w ∧ y < h - 1) (x - 1, y + 1)
  omega

theorem neighbours_length_le (g : Grid) (x y : Nat) (l : List (Nat × Nat))
    (h : g.neighbours x y = some l) : l.length ≤ 8 := by
  unfold Grid.neighbours at h
  split at h
  · exact absurd h (by simp)
  · split at h
    · cases h; simp
    · split at h
      · exact absurd h (by simp)
      · cases h; exact neighboursCore_length_le _ _ _ _

theorem countP_list_set (p : Char → Bool) :
    ∀ (l : List Char) (n : Nat) (a b : Char), l[n]? = some b →
      (l.set n a).countP p + (if p b then 1 else 0) =
        l.countP p + (if p a then 1 else 0) := by
  intro l
  induction l with
  | nil => intro n a b h; simp at h
  | cons x xs ih =>
    intro n a b h
    cases n with
    | zero =>
      simp only [List.getElem?_cons_zero, Option.some.injEq] at h
      subst h
      simp only [List.set_cons_zero, List.countP_cons]
      split <;> split <;> omega
    | succ m =>
      simp only [List.getElem?_cons_succ] at h
      simp only [List.set_cons_succ, List.countP_cons]
      have := ih m a b h
      split <;> omega

theorem list_set_eq_of_getElem? :
    ∀ (l : List Char) (n : Nat) (a : Char), l[n]? = some a → l.set n a = l := by
  intro l
  induction l with
  | nil => intro n a h; simp at h
  | cons x xs ih =>
    intro n a h
    cases n with
    | zero =>
      simp only [List.getElem?_cons_zero, Option.some.injEq] at h
      subst h; simp
    | succ m =>
      simp only [List.getElem?_cons_succ] at h
      simp [ih m a h]

theorem liveB_iff (g : Grid) (c : Char) (q : Nat × Nat) :
    liveB g c q = true ↔ ∃ v, g.get q.1 q.2 = some v ∧ v ≠ c := by
  unfold liveB
  split
  · rename_i v hv
    simp only [decide_eq_true_eq]
    constructor
    · intro h; exact ⟨v, hv, h⟩
    · rintro ⟨v', hv', h⟩; rw [hv] at hv'; cases hv'; exact h
  · rename_i hv
    simp only [Bool.false_eq_true, false_iff]
    rintro ⟨v', hv', _⟩; rw [hv] at hv'; cases hv'

theorem get_eq_getElem? (g : Grid) (x y : Nat) :
    g.get x y = g.tiles[y * g.width + x]? := by
  unfold Grid.get Grid.cord_to_pos
  by_cases h : y * g.width + x < g.tiles.length
  · rw [if_pos h]
  · rw [if_neg h, List.getElem?_eq_none (by omega)]

theorem set_of_live (g : Grid) (c : Char) (cx cy : Nat) (v : Char)
    (hget : g.get cx cy = some v) :
    (g.set cx cy c).1 = { tiles := g.tiles.set (cy * g.width + cx) c, width := g.width } ∧
      g.tiles[cy * g.width + cx]? = some v := by
  have h := get_eq_getElem? g cx cy
  rw [hget] at h
  have hlt : cy * g.width + cx < g.tiles.length := by
    by_contra hge
    rw [List.getElem?_eq_none (by omega)] at h
    cases h
  unfold Grid.set Grid.cord_to_pos
  rw [if_pos hlt]
  exact ⟨rfl, h.symm⟩

theorem set_of_dead (g : Grid) (c : Char) (cx cy : Nat)
    (hdead : liveB g c (cx, cy) = false) : (g.set cx cy c).1 = g := by
  unfold liveB at hdead
  unfold Grid.set
  split
  · rename_i pos hpos
    have hget : g.get cx cy = g.tiles[pos]? := by
      unfold Grid.get; rw [hpos]
    unfold Grid.cord_to_pos at hpos
    split at hpos
    · rename_i hlt
      cases hpos
      split at hdead
      · rename_i v hv
        simp only [decide_eq_true_eq, decide_eq_false_iff_not, not_not] at hdead
        subst hdead
        rw [hget] at hv
        rw [list_set_eq_of_getElem? _ _ _ hv]
      · rename_i hv
        rw [hget] at hv
        rw [List.getElem?_eq_none_iff] at hv
        omega
    · cases hpos
  · rfl

theorem set_dims (g : Grid) (x y : Nat) (v : Char) :
    (g.set x y v).1.width = g.width ∧ (g.set x y v).1.tiles.length = g.tiles.length := by
  unfold Grid.set
  split
  · exact ⟨rfl, by simp⟩
  · exact ⟨rfl, rfl⟩

theorem neighbours_congr_dims (g g' : Grid) (hw : g'.width = g.width)
    (hl : g'.tiles.length = g.tiles.length) (x y : Nat) :
    g'.neighbours x y = g.neighbours x y := by
  unfold Grid.neighbours Grid.height
  rw [hw, hl]

theorem topBonus_le (c : Char) (g : Grid) (s : List (Nat × Nat)) : topBonus c g s ≤ 10 := by
  cases s with
  | nil => simp [topBonus]
  | cons q t =>
    simp only [topBonus]
    split <;> omega

theorem topBonus_cons_live (c : Char) (g : Grid) (q : Nat × Nat) (t : List (Nat × Nat))
    (h : liveB g c q = true) : topBonus c g (q :: t) = 0 := by
  simp [topBonus, h]

theorem topBonus_cons_dead (c : Char) (g : Grid) (q : Nat × Nat) (t : List (Nat × Nat))
    (h : liveB g c q = false) : topBonus c g (q :: t) = 10 := by
  simp [topBonus, h]

/-- Each iteration of the flood-fill loop strictly decreases `stackMeasure`:
popping a still-unfilled tile erases one non-fill character (worth 20) at the
cost of at most 8 pushes; popping an already-filled tile either pushes nothing
(the stack shrinks) or leaves a live entry on top (the bonus drops by 10). -/
theorem stackMeasure_decreases (c : Char) (g : Grid) (cx cy : Nat)
    (rest : List (Nat × Nat)) (nbrs : List (Nat × Nat))
    (hnb : ((g.set cx cy c).1).neighbours cx cy = some nbrs) :
    stackMeasure c ((g.set cx cy c).1)
        ((nbrs.filter (liveB ((g.set cx cy c).1) c)).reverse ++ rest) <
      stackMeasure c g ((cx, cy) :: rest) := by
  have hnlen : nbrs.length ≤ 8 := neighbours_length_le _ _ _ _ hnb
  cases hlive : liveB g c (cx, cy) with
  | true =>
    -- live pop: the popped tile is overwritten, the non-fill count drops by one
    obtain ⟨v, hget, hvc⟩ := (liveB_iff g c (cx, cy)).mp hlive
    obtain ⟨hset, hold⟩ := set_of_live g c cx cy v hget
    rw [hset]
    have hcount := countP_list_set (fun t => decide (t ≠ c)) g.tiles
      (cy * g.width + cx) c v hold
    rw [if_pos (by simpa using hvc), if_neg (by simp)] at hcount
    unfold stackMeasure
    rw [topBonus_cons_live c g (cx, cy) rest hlive]
    have hb := topBonus_le c
      ({ tiles := g.tiles.set (cy * g.width + cx) c, width := g.width } : Grid)
      ((nbrs.filter (liveB { tiles := g.tiles.set (cy * g.width + cx) c, width := g.width } c)).reverse ++ rest)
    have hplen : (nbrs.filter
        (liveB { tiles := g.tiles.set (cy * g.width + cx) c, width := g.width } c)).length ≤
        nbrs.length := List.length_filter_le _ _
    have htl : ({ tiles := g.tiles.set (cy * g.width + cx) c, width := g.width } : Grid).tiles
        = g.tiles.set (cy * g.width + cx) c := rfl
    simp only [List.length_append, List.length_reverse, List.length_cons, htl]
    omega
  | false =>
    -- dead pop: the grid is unchanged
    have hgg : (g.set cx cy c).1 = g := set_of_dead g c cx cy hlive
    rw [hgg] at hnb ⊢
    unfold stackMeasure
    rw [topBonus_cons_dead c g (cx, cy) rest hlive]
    rcases hrd : (nbrs.filter (liveB g c)).reverse with _ | ⟨t0, ts⟩
    · -- nothing pushed: the stack shrinks by one
      have hb := topBonus_le c g rest
      simp only [List.nil_append, List.length_cons]
      omega
    · -- something pushed: the new top entry is live, the bonus drops to zero
      have ht0 : liveB g c t0 = true := by
        have hmem : t0 ∈ nbrs.filter (liveB g c) := by
          rw [← List.mem_reverse, hrd]
          exact List.mem_cons_self t0 ts
        exact (List.mem_filter.mp hmem).2
      rw [List.cons_append, topBonus_cons_live c g t0 (ts ++ rest) ht0]
      have hlen : ts.length + 1 = (nbrs.filter (liveB g c)).length := by
        have hc := congrArg List.length hrd
        simp only [List.length_reverse, List.length_cons] at hc
        omega
      have hfl : (nbrs.filter (liveB g c)).length ≤ nbrs.length :=
        List.length_filter_le _ _
      simp only [List.cons_append, List.length_cons, List.length_append]
      omega

/-- The work-stack loop of Rust `Grid::fill`, with the stack's top at the head
of the list (Rust pushes to and pops from the end of its `Vec`; pushing the
kept neighbours n1..nk in source order therefore leaves nk on top, which is
`reverse` here).  Each iteration pops, unconditionally `set`s the popped
coordinate to the fill character, and pushes every neighbour whose current
character differs from it; `none` records a panic inside `neighbours`. -/
def fillLoop (c : Char) (g : Grid) (stack : List (Nat × Nat)) : Option Grid :=
  match stack with
  | [] => some g
  | (cx, cy) :: rest =>
    match hnb : ((g.set cx cy c).1).neighbours cx cy with
    | none => none
    | some nbrs =>
      fillLoop c ((g.set cx cy c).1)
        ((nbrs.filter (liveB ((g.set cx cy c).1) c)).reverse ++ rest)
termination_by stackMeasure c g stack
decreasing_by exact stackMeasure_decreases c g cx cy rest nbrs hnb

/-- Rust `Grid::fill(start_x, start_y, fill)`: run the work-stack loop from the
single start coordinate. -/
def Grid.fill (g : Grid) (start_x start_y : Nat) (c : Char) : Option Grid :=
  fillLoop c g [(start_x, start_y)]

theorem fillLoop_nil (c : Char) (g : Grid) : fillLoop c g [] = some g := by
  rw [fillLoop]

theorem fillLoop_cons_none (c : Char) (g : Grid) (cx cy : Nat) (rest : List (Nat × Nat))
    (hnb : ((g.set cx cy c).1).neighbours cx cy = none) :
    fillLoop c g ((cx, cy) :: rest) = none := by
  rw [fillLoop, hnb]

theorem fillLoop_cons_some (c : Char) (g : Grid) (cx cy : Nat) (rest : List (Nat × Nat))
    (nbrs : List (Nat × Nat)) (hnb : ((g.set cx cy c).1).neighbours cx cy = some nbrs) :
    fillLoop c g ((cx, cy) :: rest) =
      fillLoop c ((g.set cx cy c).1)
        ((nbrs.filter (liveB ((g.set cx cy c).1) c)).reverse ++ rest) := by
  rw [fillLoop, hnb]

/-- A coordinate pair lying inside the logical `width × height` rectangle
(spec §3: `0 <= x < width` and `0 <= y < height`). -/
def inBounds (g : Grid) (q : Nat × Nat) : Prop :=
  q.1 < g.width ∧ q.2 < g.height

/-- Modelled from the spec (§4.4): the in-bounds 8-directional neighbours of an
in-bounds centre `(x, y)`, in the fixed order up, right, down, left,
down-right, up-right, up-left, down-left, skipped directions simply omitted.
For an in-bounds centre the up neighbour `(x, y-1)` is in bounds iff `0 < y`,
the right neighbour iff `x+1 < w`, the down neighbour iff `y+1 < h`, the left
neighbour iff `0 < x`, and the diagonals need both their conditions. -/
def specNeighbours (w h x y : Nat) : List (Nat × Nat) :=
  (if 0 < y then [(x, y - 1)] else []) ++
  (if x + 1 < w then [(x + 1, y)] else []) ++
  (if y + 1 < h then [(x, y + 1)] else []) ++
  (if 0 < x then [(x - 1, y)] else []) ++
  (if x + 1 < w ∧ y + 1 < h then [(x + 1, y + 1)] else []) ++
  (if x + 1 < w ∧ 0 < y then [(x + 1, y - 1)] else []) ++
  (if 0 < x ∧ 0 < y then [(x - 1, y - 1)] else []) ++
  (if 0 < x ∧ y + 1 < h then [(x - 1, y + 1)] else [])

theorem neighboursCore_eq_spec (w h x y : Nat) (hx : x < w) (hy : y < h) :
    neighboursCore w h x y = specNeighbours w h x y := by
  unfold neighboursCore specNeighbours
  have e1 : (0 < y ∧ y < h) ↔ 0 < y := by omega
  have e2 : (x < w - 1) ↔ x + 1 < w := by omega
  have e3 : (y < h - 1) ↔ y + 1 < h := by omega
  have e4 : (0 < x ∧ x < w) ↔ 0 < x := by omega
  have e5 : (x < w - 1 ∧ y < h - 1) ↔ (x + 1 < w ∧ y + 1 < h) := by omega
  have e6 : (x < w - 1 ∧ 0 < y ∧ y < h) ↔ (x + 1 < w ∧ 0 < y) := by omega
  have e7 : (0 < x ∧ 0 < y ∧ x < w ∧ y < h) ↔ (0 < x ∧ 0 < y) := by omega
  have e8 : (0 < x ∧ x < w ∧ y < h - 1) ↔ (0 < x ∧ y + 1 < h) := by omega
  have e8b : (0 < x ∧ x < w ∧ y + 1 < h) ↔ (0 < x ∧ y + 1 < h) := by omega
  simp only [e1, e2, e3, e4, e5, e6, e7, e8, e8b]

/-- On an in-bounds coordinate the Rust `neighbours` cannot panic and computes
exactly the spec's ordered in-bounds 8-neighbour list. -/
theorem neighbours_inBounds_eq (g : Grid) (x y : Nat) (hx : x < g.width) (hy : y < g.height) :
    g.neighbours x y = some (specNeighbours g.width g.height x y) := by
  unfold Grid.neighbours
  rw [if_neg (by omega), if_neg (by push_neg; omega), if_neg (by omega)]
  rw [neighboursCore_eq_spec g.width g.height x y hx hy]

theorem mem_ite_singleton {α : Type} {P : Prop} [Decidable P] {a q : α}
    (h : q ∈ (if P then [a] else [])) : P ∧ q = a := by
  split at h
  · simp only [List.mem_singleton] at h
    exact ⟨by assumption, h⟩
  · simp at h

theorem specNeighbours_mem_inBounds (w h x y : Nat) (hx : x < w) (hy : y < h)
    (q : Nat × Nat) (hq : q ∈ specNeighbours w h x y) : q.1 < w ∧ q.2 < h := by
  unfold specNeighbours at hq
  simp only [List.mem_append] at hq
  rcases hq with ((((((h0 | h0) | h0) | h0) | h0) | h0) | h0) | h0 <;>
    (obtain ⟨hp, rfl⟩ := mem_ite_singleton h0; constructor <;> dsimp only <;> omega)

/-- Row-major positions are injective on in-bounds coordinates. -/
theorem pos_inj (w x x' y y' : Nat) (hx : x < w) (hx' : x' < w)
    (h : y * w + x = y' * w + x') : x = x' ∧ y = y' := by
  have hw : 0 < w := lt_of_le_of_lt (Nat.zero_le x) hx
  have hc : w * y + x = w * y' + x' := by
    rw [Nat.mul_comm w y, Nat.mul_comm w y']; exact h
  have h1 : (w * y + x) % w = x % w := Nat.mul_add_mod w y x
  have h2 : (w * y' + x') % w = x' % w := Nat.mul_add_mod w y' x'
  rw [hc, h2] at h1
  rw [Nat.mod_eq_of_lt hx', Nat.mod_eq_of_lt hx] at h1
  have hxx : x = x' := h1.symm
  refine ⟨hxx, Nat.eq_of_mul_eq_mul_left hw ?_⟩
  omega

/-- In-bounds coordinates always map inside the tile buffer
(spec §3 invariant: `pos = y*width + x` and `pos < tiles.len()`). -/
theorem inBounds_pos_lt (g : Grid) (x y : Nat) (hx : x < g.width) (hy : y < g.height) :
    y * g.width + x < g.tiles.length := by
  have e : (y + 1) * g.width = y * g.width + g.width := by ring
  have h2 : (y + 1) * g.width ≤ g.height * g.width := Nat.mul_le_mul_right _ (by omega)
  have h3 : g.height * g.width ≤ g.tiles.length := Nat.div_mul_le_self _ _
  omega

theorem get_inBounds_some (g : Grid) (x y : Nat) (hx : x < g.width) (hy : y < g.height) :
    ∃ v, g.get x y = some v := by
  rw [get_eq_getElem?]
  exact ⟨_, List.getElem?_eq_getElem (inBounds_pos_lt g x y hx hy)⟩

theorem getElem?_set_self' (l : List Char) (i : Nat) (a : Char) (h : i < l.length) :
    (l.set i a)[i]? = some a := by
  simp [List.getElem?_set_self, h]

/-- Claim C1's region, modelled from the spec (§4.3): a tile belongs to the
region iff it is the start tile, or is reachable from the start by a chain of
8-directional neighbour steps in which each visited tile, before being
overwritten, holds a character different from the fill character. -/
inductive specReach (g : Grid) (c : Char) (s : Nat × Nat) : Nat × Nat → Prop
  | refl : specReach g c s s
  | step {m n : Nat × Nat} : specReach g c s m →
      n ∈ specNeighbours g.width g.height m.1 m.2 →
      (∃ v, g.get n.1 n.2 = some v ∧ v ≠ c) → specReach g c s n

theorem specReach_inBounds (g : Grid) (c : Char) (s q : Nat × Nat)
    (hs : inBounds g s) (h : specReach g c s q) : inBounds g q := by
  induction h with
  | refl => exact hs
  | step hm hmem hlive ih =>
    exact specNeighbours_mem_inBounds g.width g.height _ _ ih.1 ih.2 _ hmem

theorem set_eq_record (g : Grid) (cx cy : Nat) (c : Char)
    (hlt : cy * g.width + cx < g.tiles.length) :
    (g.set cx cy c).1 = { tiles := g.tiles.set (cy * g.width + cx) c, width := g.width } := by
  unfold Grid.set Grid.cord_to_pos
  rw [if_pos hlt]

theorem record_height (g : Grid) (p : Nat) (c : Char) :
    ({ tiles := g.tiles.set p c, width := g.width } : Grid).height = g.height := by
  unfold Grid.height
  simp

theorem record_get_self (g : Grid) (cx cy : Nat) (c : Char)
    (hlt : cy * g.width + cx < g.tiles.length) :
    ({ tiles := g.tiles.set (cy * g.width + cx) c, width := g.width } : Grid).get cx cy = some c := by
  rw [get_eq_getElem?]
  exact getElem?_set_self' _ _ _ hlt

/-- Setting the tile at an in-bounds coordinate does not change the push guard
at any other in-bounds coordinate. -/
theorem liveB_set_untouched (g : Grid) (c : Char) (cx cy : Nat)
    (hex : cx < g.width) (q : Nat × Nat) (hq1 : q.1 < g.width) (hne : q ≠ (cx, cy)) :
    liveB ({ tiles := g.tiles.set (cy * g.width + cx) c, width := g.width } : Grid) c q =
      liveB g c q := by
  obtain ⟨qx, qy⟩ := q
  have hpos : cy * g.width + cx ≠ qy * g.width + qx := by
    intro hcontra
    obtain ⟨h1, h2⟩ := pos_inj g.width cx qx cy qy hex hq1 hcontra
    exact hne (by simp [h1, h2])
  unfold liveB
  rw [get_eq_getElem?, get_eq_getElem?]
  dsimp only
  rw [List.getElem?_set_ne hpos]

/-- A coordinate that passes the push guard after the `set` passed it before
the `set` as well (the write only introduces the fill character). -/
theorem liveB_of_set_live (g : Grid) (c : Char) (cx cy : Nat)
    (hposE : cy * g.width + cx < g.tiles.length) (q : Nat × Nat)
    (h : liveB ({ tiles := g.tiles.set (cy * g.width + cx) c, width := g.width } : Grid) c q
        = true) :
    liveB g c q = true := by
  unfold liveB at h ⊢
  rw [get_eq_getElem?] at h
  dsimp only at h
  rw [get_eq_getElem?]
  by_cases hpq : cy * g.width + cx = q.2 * g.width + q.1
  · rw [← hpq, getElem?_set_self' _ _ _ hposE] at h
    simp at h
  · rw [List.getElem?_set_ne hpq] at h
    exact h

theorem inBounds_record (g : Grid) (p : Nat) (c : Char) (q : Nat × Nat) :
    inBounds ({ tiles := g.tiles.set p c, width := g.width } : Grid) q ↔ inBounds g q := by
  unfold inBounds
  have hh := record_height g p c
  have hw : ({ tiles := g.tiles.set p c, width := g.width } : Grid).width = g.width := rfl
  rw [hh, hw]

/-- Region transfer, forward direction: a tile reached from the old stack in
the old grid is either the popped coordinate itself, or is reached in the
updated grid from the updated stack (the pushed guarded neighbours plus the
remaining entries). -/
theorem reach_transfer_fwd (g : Grid) (c : Char) (cx cy : Nat)
    (hex : cx < g.width) (hey : cy < g.height) (rest : List (Nat × Nat))
    (s q : Nat × Nat) (hs : inBounds g s) (hse : s = (cx, cy) ∨ s ∈ rest)
    (h : specReach g c s q) :
    q = (cx, cy) ∨
      ∃ s' ∈ ((specNeighbours g.width g.height cx cy).filter
            (liveB ({ tiles := g.tiles.set (cy * g.width + cx) c, width := g.width } : Grid) c)).reverse
          ++ rest,
        specReach ({ tiles := g.tiles.set (cy * g.width + cx) c, width := g.width } : Grid) c s' q := by
  induction h with
  | refl =>
    rcases hse with h1 | h1
    · exact Or.inl h1
    · exact Or.inr ⟨s, List.mem_append_right _ h1, specReach.refl⟩
  | @step m n hm hmem hlive ih =>
    by_cases hqe : n = (cx, cy)
    · exact Or.inl hqe
    · right
      have hmB : inBounds g m := specReach_inBounds g c s m hs hm
      have hnB : inBounds g n :=
        specNeighbours_mem_inBounds g.width g.height m.1 m.2 hmB.1 hmB.2 n hmem
      have hlive1 : liveB ({ tiles := g.tiles.set (cy * g.width + cx) c, width := g.width } : Grid) c n = true := by
        rw [liveB_set_untouched g c cx cy hex n hnB.1 hqe]
        exact (liveB_iff g c n).mpr hlive
      rcases ih with hme | ⟨s', hs'mem, hr⟩
      · refine ⟨n, ?_, specReach.refl⟩
        apply List.mem_append_left
        rw [List.mem_reverse]
        refine List.mem_filter.mpr ⟨?_, hlive1⟩
        rw [hme] at hmem
        exact hmem
      · refine ⟨s', hs'mem, specReach.step hr ?_ ?_⟩
        · have hh := record_height g (cy * g.width + cx) c
          have hw : ({ tiles := g.tiles.set (cy * g.width + cx) c, width := g.width } : Grid).width = g.width := rfl
          rw [hh, hw]
          exact hmem
        · exact (liveB_iff _ c n).mp hlive1

/-- Region transfer, backward direction: a tile reached from the updated stack
in the updated grid was already reached from the old stack in the old grid. -/
theorem reach_transfer_back (g : Grid) (c : Char) (cx cy : Nat)
    (hposE : cy * g.width + cx < g.tiles.length)
    (rest : List (Nat × Nat)) (s' q : Nat × Nat)
    (hs' : s' ∈ ((specNeighbours g.width g.height cx cy).filter
            (liveB ({ tiles := g.tiles.set (cy * g.width + cx) c, width := g.width } : Grid) c)).reverse
          ++ rest)
    (h : specReach ({ tiles := g.tiles.set (cy * g.width + cx) c, width := g.width } : Grid) c s' q) :
    ∃ s, (s = (cx, cy) ∨ s ∈ rest) ∧ specReach g c s q := by
  induction h with
  | refl =>
    rcases List.mem_append.mp hs' with hl | hr
    · rw [List.mem_reverse] at hl
      obtain ⟨hmem, hlive1⟩ := List.mem_filter.mp hl
      have hliveg : liveB g c s' = true := liveB_of_set_live g c cx cy hposE s' hlive1
      exact ⟨(cx, cy), Or.inl rfl,
        specReach.step specReach.refl hmem ((liveB_iff g c s').mp hliveg)⟩
    · exact ⟨s', Or.inr hr, specReach.refl⟩
  | @step m n hm hmem hlive ih =>
    obtain ⟨s, hsor, hr⟩ := ih
    have hlive1 : liveB ({ tiles := g.tiles.set (cy * g.width + cx) c, width := g.width } : Grid) c n = true :=
      (liveB_iff _ c n).mpr hlive
    have hliveg := liveB_of_set_live g c cx cy hposE n hlive1
    refine ⟨s, hsor, specReach.step hr ?_ ((liveB_iff g c n).mp hliveg)⟩
    have hh := record_height g (cy * g.width + cx) c
    have hw : ({ tiles := g.tiles.set (cy * g.width + cx) c, width := g.width } : Grid).width = g.width := rfl
    rw [hh, hw] at hmem
    exact hmem

/-- Main invariant of the flood-fill work loop, proved by induction on the
termination measure: when every stack entry is in bounds the loop cannot
panic, preserves the dimensions, writes the fill character to exactly the
tiles reachable from some stack entry, and leaves every other in-bounds tile
untouched. -/
theorem fillLoop_spec (c : Char) :
    ∀ (n : Nat) (g : Grid) (stack : List (Nat × Nat)),
      stackMeasure c g stack ≤ n →
      (∀ q ∈ stack, inBounds g q) →
      ∃ g', fillLoop c g stack = some g' ∧
        g'.width = g.width ∧ g'.tiles.length = g.tiles.length ∧
        ∀ i j, i < g.width → j < g.height →
          ((∃ s ∈ stack, specReach g c s (i, j)) → g'.get i j = some c) ∧
          ((∀ s ∈ stack, ¬ specReach g c s (i, j)) → g'.get i j = g.get i j) := by
  intro n
  induction n with
  | zero =>
    intro g stack hm hin
    cases stack with
    | nil =>
      exact ⟨g, fillLoop_nil c g, rfl, rfl, fun i j hi hj =>
        ⟨fun ⟨s, hs, _⟩ => absurd hs (List.not_mem_nil s), fun _ => rfl⟩⟩
    | cons e rest =>
      exfalso
      unfold stackMeasure at hm
      simp only [List.length_cons] at hm
      omega
  | succ n ih =>
    intro g stack hm hin
    cases stack with
    | nil =>
      exact ⟨g, fillLoop_nil c g, rfl, rfl, fun i j hi hj =>
        ⟨fun ⟨s, hs, _⟩ => absurd hs (List.not_mem_nil s), fun _ => rfl⟩⟩
    | cons e rest =>
      obtain ⟨cx, cy⟩ := e
      have hex : cx < g.width := (hin (cx, cy) (List.mem_cons_self _ _)).1
      have hey : cy < g.height := (hin (cx, cy) (List.mem_cons_self _ _)).2
      have hposE : cy * g.width + cx < g.tiles.length := inBounds_pos_lt g cx cy hex hey
      have hsetg1 : (g.set cx cy c).1 =
          ({ tiles := g.tiles.set (cy * g.width + cx) c, width := g.width } : Grid) :=
        set_eq_record g cx cy c hposE
      obtain ⟨g1, hg1⟩ : ∃ gg, ({ tiles := g.tiles.set (cy * g.width + cx) c, width := g.width } : Grid) = gg :=
        ⟨_, rfl⟩
      rw [hg1] at hsetg1
      have hw1 : g1.width = g.width := by rw [← hg1]
      have hh1 : g1.height = g.height := by rw [← hg1]; exact record_height g _ c
      have hl1 : g1.tiles.length = g.tiles.length := by rw [← hg1]; simp
      have hnbrs : g1.neighbours cx cy = some (specNeighbours g.width g.height cx cy) := by
        have h0 := neighbours_inBounds_eq g1 cx cy (by rw [hw1]; exact hex) (by rw [hh1]; exact hey)
        rw [hw1, hh1] at h0
        exact h0
      have hstep : fillLoop c g ((cx, cy) :: rest) =
          fillLoop c g1 (((specNeighbours g.width g.height cx cy).filter (liveB g1 c)).reverse ++ rest) := by
        have h0 := fillLoop_cons_some c g cx cy rest (specNeighbours g.width g.height cx cy)
          (by rw [hsetg1]; exact hnbrs)
        rw [hsetg1] at h0
        exact h0
      have hmeas : stackMeasure c g1
          (((specNeighbours g.width g.height cx cy).filter (liveB g1 c)).reverse ++ rest) <
          stackMeasure c g ((cx, cy) :: rest) := by
        have h0 := stackMeasure_decreases c g cx cy rest (specNeighbours g.width g.height cx cy)
          (by rw [hsetg1]; exact hnbrs)
        rw [hsetg1] at h0
        exact h0
      have hin1 : ∀ q ∈ ((specNeighbours g.width g.height cx cy).filter (liveB g1 c)).reverse ++ rest,
          inBounds g1 q := by
        intro q hq
        rcases List.mem_append.mp hq with hql | hqr
        · rw [List.mem_reverse] at hql
          have hmem := (List.mem_filter.mp hql).1
          have hB := specNeighbours_mem_inBounds g.width g.height cx cy hex hey q hmem
          exact ⟨by rw [hw1]; exact hB.1, by rw [hh1]; exact hB.2⟩
        · have hB := hin q (List.mem_cons_of_mem _ hqr)
          exact ⟨by rw [hw1]; exact hB.1, by rw [hh1]; exact hB.2⟩
      obtain ⟨g', hrun, hw', hl', hprops⟩ := ih g1
        (((specNeighbours g.width g.height cx cy).filter (liveB g1 c)).reverse ++ rest)
        (by omega) hin1
      refine ⟨g', by rw [hstep]; exact hrun, by rw [hw', hw1], by rw [hl', hl1], ?_⟩
      intro i j hi hj
      have hprops' := hprops i j (by rw [hw1]; exact hi) (by rw [hh1]; exact hj)
      constructor
      · rintro ⟨s, hsmem, hreach⟩
        have hse : s = (cx, cy) ∨ s ∈ rest := List.mem_cons.mp hsmem
        have hsB : inBounds g s := hin s hsmem
        have htr := reach_transfer_fwd g c cx cy hex hey rest s (i, j) hsB hse hreach
        rw [hg1] at htr
        rcases htr with hqe | ⟨s', hs'm, hr'⟩
        · by_cases hreg : ∃ s' ∈ ((specNeighbours g.width g.height cx cy).filter (liveB g1 c)).reverse ++ rest,
              specReach g1 c s' (i, j)
          · exact hprops'.1 hreg
          · have hnone : ∀ s' ∈ ((specNeighbours g.width g.height cx cy).filter (liveB g1 c)).reverse ++ rest,
                ¬ specReach g1 c s' (i, j) := fun s' hs' hr => hreg ⟨s', hs', hr⟩
            rw [hprops'.2 hnone]
            rw [Prod.mk.injEq] at hqe
            obtain ⟨hic, hjc⟩ := hqe
            rw [hic, hjc, ← hg1]
            exact record_get_self g cx cy c hposE
        · exact hprops'.1 ⟨s', hs'm, hr'⟩
      · intro hnone
        have hne : (i, j) ≠ (cx, cy) := by
          intro hcontra
          exact hnone (cx, cy) (List.mem_cons_self _ _) (by rw [hcontra]; exact specReach.refl)
        have hnone1 : ∀ s' ∈ ((specNeighbours g.width g.height cx cy).filter (liveB g1 c)).reverse ++ rest,
            ¬ specReach g1 c s' (i, j) := by
          intro s' hs' hr
          rw [← hg1] at hs' hr
          obtain ⟨s, hsor, hreach⟩ := reach_transfer_back g c cx cy hposE rest s' (i, j) hs' hr
          rcases hsor with h1 | h1
          · exact hnone (cx, cy) (List.mem_cons_self _ _) (by rw [← h1]; exact hreach)
          · exact hnone s (List.mem_cons_of_mem _ h1) hreach
        rw [hprops'.2 hnone1]
        rw [get_eq_getElem?, get_eq_getElem?]
        have hpos : cy * g.width + cx ≠ j * g.width + i := by
          intro hcontra
          obtain ⟨h1, h2⟩ := pos_inj g.width cx i cy j hex hi hcontra
          exact hne (by rw [h1, h2])
        rw [← hg1]
        dsimp only
        rw [List.getElem?_set_ne hpos]

/-- Flood fill from an in-bounds start coordinate succeeds, preserves the
dimensions, writes the fill character to exactly the start tile and the tiles
reachable through guarded 8-neighbour chains, and leaves every other in-bounds
tile unchanged. -/
theorem fill_spec (g : Grid) (x y : Nat) (c : Char) (hx : x < g.width) (hy : y < g.height) :
    ∃ g', g.fill x y c = some g' ∧ g'.width = g.width ∧ g'.tiles.length = g.tiles.length ∧
      ∀ i j, i < g.width → j < g.height →
        (specReach g c (x, y) (i, j) → g'.get i j = some c) ∧
        (¬ specReach g c (x, y) (i, j) → g'.get i j = g.get i j) := by
  obtain ⟨g', hrun, hw, hl, hprops⟩ := fillLoop_spec c (stackMeasure c g [(x, y)]) g [(x, y)]
    le_rfl (by
      intro q hq
      rw [List.mem_singleton] at hq
      rw [hq]
      exact ⟨hx, hy⟩)
  refine ⟨g', hrun, hw, hl, ?_⟩
  intro i j hi hj
  have h := hprops i j hi hj
  constructor
  · intro hr
    exact h.1 ⟨(x, y), List.mem_singleton_self _, hr⟩
  · intro hnr
    refine h.2 ?_
    intro s hs
    rw [List.mem_singleton] at hs
    rw [hs]
    exact hnr

theorem set_noop_of_c (g : Grid) (x y : Nat) (c : Char)
    (h : g.tiles[y * g.width + x]? = some c) : (g.set x y c).1 = g := by
  rw [set_eq_record g x y c (List.getElem?_eq_some.mp h).1]
  rw [list_set_eq_of_getElem? _ _ _ h]

theorem set_noop_oob (g : Grid) (x y : Nat) (c : Char)
    (h : ¬ y * g.width + x < g.tiles.length) : (g.set x y c).1 = g := by
  unfold Grid.set Grid.cord_to_pos
  rw [if_neg h]

/-- A successful run of the work loop preserves the width and the buffer
length (only `set` touches the grid, and `List.set` keeps the length). -/
theorem fillLoop_dims (c : Char) :
    ∀ (n : Nat) (g : Grid) (stack : List (Nat × Nat)), stackMeasure c g stack ≤ n →
      ∀ g', fillLoop c g stack = some g' →
        g'.width = g.width ∧ g'.tiles.length = g.tiles.length := by
  intro n
  induction n with
  | zero =>
    intro g stack hm g' h
    cases stack with
    | nil => rw [fillLoop_nil] at h; cases h; exact ⟨rfl, rfl⟩
    | cons e rest =>
      exfalso
      unfold stackMeasure at hm
      simp only [List.length_cons] at hm
      omega
  | succ n ih =>
    intro g stack hm g' h
    cases stack with
    | nil => rw [fillLoop_nil] at h; cases h; exact ⟨rfl, rfl⟩
    | cons e rest =>
      obtain ⟨cx, cy⟩ := e
      rcases hnb : ((g.set cx cy c).1).neighbours cx cy with _ | nbrs
      · rw [fillLoop_cons_none c g cx cy rest hnb] at h
        cases h
      · rw [fillLoop_cons_some c g cx cy rest nbrs hnb] at h
        have hmeas := stackMeasure_decreases c g cx cy rest nbrs hnb
        have hd := set_dims g cx cy c
        obtain ⟨hw, hl⟩ := ih ((g.set cx cy c).1) _ (by omega) g' h
        exact ⟨by rw [hw, hd.1], by rw [hl, hd.2]⟩

theorem set_preserves_c (g : Grid) (cx cy : Nat) (c : Char) (p : Nat)
    (h : g.tiles[p]? = some c) : ((g.set cx cy c).1).tiles[p]? = some c := by
  by_cases hlt : cy * g.width + cx < g.tiles.length
  · rw [set_eq_record g cx cy c hlt]
    dsimp only
    by_cases hp : cy * g.width + cx = p
    · rw [hp]
      exact getElem?_set_self' _ _ _ (List.getElem?_eq_some.mp h).1
    · rw [List.getElem?_set_ne hp]
      exact h
  · rw [set_noop_oob g cx cy c hlt]
    exact h

/-- Positions already holding the fill character still hold it after the loop:
`fill` only ever writes the fill character. -/
theorem fillLoop_persists (c : Char) :
    ∀ (n : Nat) (g : Grid) (stack : List (Nat × Nat)), stackMeasure c g stack ≤ n →
      ∀ g', fillLoop c g stack = some g' →
        ∀ p : Nat, g.tiles[p]? = some c → g'.tiles[p]? = some c := by
  intro n
  induction n with
  | zero =>
    intro g stack hm g' h p hp
    cases stack with
    | nil => rw [fillLoop_nil] at h; cases h; exact hp
    | cons e rest =>
      exfalso
      unfold stackMeasure at hm
      simp only [List.length_cons] at hm
      omega
  | succ n ih =>
    intro g stack hm g' h p hp
    cases stack with
    | nil => rw [fillLoop_nil] at h; cases h; exact hp
    | cons e rest =>
      obtain ⟨cx, cy⟩ := e
      rcases hnb : ((g.set cx cy c).1).neighbours cx cy with _ | nbrs
      · rw [fillLoop_cons_none c g cx cy rest hnb] at h
        cases h
      · rw [fillLoop_cons_some c g cx cy rest nbrs hnb] at h
        have hmeas := stackMeasure_decreases c g cx cy rest nbrs hnb
        exact ih ((g.set cx cy c).1) _ (by omega) g' h p (set_preserves_c g cx cy c p hp)

/-- Every stack entry whose position lies inside the buffer holds the fill
character once the loop completes: it is eventually popped and overwritten,
and only the fill character is ever written afterwards. -/
theorem fillLoop_stack_filled (c : Char) :
    ∀ (n : Nat) (g : Grid) (stack : List (Nat × Nat)), stackMeasure c g stack ≤ n →
      ∀ g', fillLoop c g stack = some g' →
        ∀ q ∈ stack, q.2 * g.width + q.1 < g.tiles.length →
          g'.tiles[q.2 * g.width + q.1]? = some c := by
  intro n
  induction n with
  | zero =>
    intro g stack hm g' h q hq hlt
    cases stack with
    | nil => exact absurd hq (List.not_mem_nil q)
    | cons e rest =>
      exfalso
      unfold stackMeasure at hm
      simp only [List.length_cons] at hm
      omega
  | succ n ih =>
    intro g stack hm g' h q hq hlt
    cases stack with
    | nil => exact absurd hq (List.not_mem_nil q)
    | cons e rest =>
      obtain ⟨cx, cy⟩ := e
      rcases hnb : ((g.set cx cy c).1).neighbours cx cy with _ | nbrs
      · rw [fillLoop_cons_none c g cx cy rest hnb] at h
        cases h
      · rw [fillLoop_cons_some c g cx cy rest nbrs hnb] at h
        have hmeas := stackMeasure_decreases c g cx cy rest nbrs hnb
        have hd := set_dims g cx cy c
        rcases List.mem_cons.mp hq with hqe | hqr
        · -- the popped entry itself: `set` wrote the fill character there
          have hq1 : q.1 = cx := by rw [hqe]
          have hq2 : q.2 = cy := by rw [hqe]
          rw [hq1, hq2] at hlt ⊢
          have hwrote : ((g.set cx cy c).1).tiles[cy * g.width + cx]? = some c := by
            rw [set_eq_record g cx cy c hlt]
            exact getElem?_set_self' _ _ _ hlt
          exact fillLoop_persists c (stackMeasure c ((g.set cx cy c).1) _)
            ((g.set cx cy c).1) _ le_rfl g' h _ hwrote
        · -- an entry of the remaining stack: it survives into the new stack
          have hmem : q ∈ (nbrs.filter (liveB ((g.set cx cy c).1) c)).reverse ++ rest :=
            List.mem_append_right _ hqr
          have hlt1 : q.2 * ((g.set cx cy c).1).width + q.1 < ((g.set cx cy c).1).tiles.length := by
            rw [hd.1, hd.2]
            exact hlt
          have := ih ((g.set cx cy c).1) _ (by omega) g' h q hmem hlt1
          rw [hd.1] at this
          exact this

/-- Core of flood-fill idempotence: after a successful `fill`, running the same
`fill` again changes nothing, because the start tile (if it maps into the
buffer) now holds the fill character and every neighbour the first run
examined is now either the fill character or outside the buffer. -/
theorem fill_idem (g : Grid) (x y : Nat) (c : Char) (g1 : Grid)
    (h : g.fill x y c = some g1) : g1.fill x y c = some g1 := by
  unfold Grid.fill at h ⊢
  rcases hnb : ((g.set x y c).1).neighbours x y with _ | nbrs
  · rw [fillLoop_cons_none c g x y [] hnb] at h
    cases h
  · rw [fillLoop_cons_some c g x y [] nbrs hnb] at h
    have hds := set_dims g x y c
    have hd1 := fillLoop_dims c (stackMeasure c ((g.set x y c).1)
      ((nbrs.filter (liveB ((g.set x y c).1) c)).reverse ++ [])) ((g.set x y c).1) _ le_rfl g1 h
    have hw1 : g1.width = g.width := by rw [hd1.1, hds.1]
    have hl1 : g1.tiles.length = g.tiles.length := by rw [hd1.2, hds.2]
    -- the start tile holds the fill character in g1 whenever it is in range
    have hstart : ∀ hlt : y * g.width + x < g.tiles.length,
        g1.tiles[y * g.width + x]? = some c := by
      intro hlt
      have hwrote : ((g.set x y c).1).tiles[y * g.width + x]? = some c := by
        rw [set_eq_record g x y c hlt]
        exact getElem?_set_self' _ _ _ hlt
      exact fillLoop_persists c _ ((g.set x y c).1) _ le_rfl g1 h _ hwrote
    -- re-running set on g1 is a no-op
    have hset1 : (g1.set x y c).1 = g1 := by
      by_cases hlt : y * g.width + x < g.tiles.length
      · apply set_noop_of_c
        rw [hw1]
        exact hstart hlt
      · apply set_noop_oob
        rw [hw1, hl1]
        exact hlt
    -- the second run sees the same neighbour list
    have hnb1 : ((g1.set x y c).1).neighbours x y = some nbrs := by
      rw [hset1]
      rw [neighbours_congr_dims ((g.set x y c).1) g1
        (by rw [hw1, hds.1]) (by rw [hl1, hds.2]) x y]
      exact hnb
    rw [fillLoop_cons_some c g1 x y [] nbrs hnb1]
    rw [hset1]
    -- no neighbour is pushed the second time around
    have hfilter : nbrs.filter (liveB g1 c) = [] := by
      rw [List.filter_eq_nil_iff]
      intro q hq
      intro hlv
      rw [liveB_iff] at hlv
      obtain ⟨v, hget, hvc⟩ := hlv
      rw [get_eq_getElem?] at hget
      -- the same position, read in the grid of the first run's loop
      rcases hg0 : ((g.set x y c).1).tiles[q.2 * ((g.set x y c).1).width + q.1]? with _ | v0
      · -- out of range in the loop grid, hence out of range in g1: contradiction
        rw [List.getElem?_eq_none_iff] at hg0
        rw [hds.2, hds.1] at hg0
        have : g1.tiles.length ≤ q.2 * g1.width + q.1 := by
          rw [hl1, hw1]
          exact hg0
        rw [List.getElem?_eq_none this] at hget
        cases hget
      · by_cases hv0c : v0 = c
        · -- already the fill character before the loop: it persists
          rw [hv0c] at hg0
          have := fillLoop_persists c _ ((g.set x y c).1) _ le_rfl g1 h _ hg0
          rw [hw1] at hget
          rw [hds.1] at this
          rw [this] at hget
          cases hget
          exact hvc rfl
        · -- it was pushed by the first iteration, hence filled by the loop
          have hlv0 : liveB ((g.set x y c).1) c q = true := by
            rw [liveB_iff]
            refine ⟨v0, ?_, hv0c⟩
            rw [get_eq_getElem?]
            exact hg0
          have hmem : q ∈ (nbrs.filter (liveB ((g.set x y c).1) c)).reverse ++ [] :=
            List.mem_append_left _ (List.mem_reverse.mpr (List.mem_filter.mpr ⟨hq, hlv0⟩))
          have hlt0 : q.2 * ((g.set x y c).1).width + q.1 < ((g.set x y c).1).tiles.length :=
            (List.getElem?_eq_some.mp hg0).1
          have := fillLoop_stack_filled c _ ((g.set x y c).1) _ le_rfl g1 h q hmem hlt0
          rw [hw1] at hget
          rw [hds.1] at this
          rw [this] at hget
          cases hget
          exact hvc rfl
    rw [hfilter]
    simp only [List.reverse_nil, List.nil_append]
    exact fillLoop_nil c g1

/-- Fuel-indexed version of the work loop: `none` means the fuel ran out
before the loop finished, `some r` means the loop finished (with `r = none`
recording a panic inside `neighbours`, exactly as in `fillLoop`). -/
def fillLoopFuel (c : Char) : Nat → Grid → List (Nat × Nat) → Option (Option Grid)
  | _, g, [] => some (some g)
  | 0, _, _ :: _ => none
  | fuel + 1, g, (cx, cy) :: rest =>
    match ((g.set cx cy c).1).neighbours cx cy with
    | none => some none
    | some nbrs =>
      fillLoopFuel c fuel ((g.set cx cy c).1)
        ((nbrs.filter (liveB ((g.set cx cy c).1) c)).reverse ++ rest)

/-- Any fuel beyond the termination measure lets the fuel-indexed loop finish
and agree with `fillLoop`. -/
theorem fillLoopFuel_sufficient (c : Char) :
    ∀ (fuel : Nat) (g : Grid) (stack : List (Nat × Nat)),
      stackMeasure c g stack < fuel →
      fillLoopFuel c fuel g stack = some (fillLoop c g stack) := by
  intro fuel
  induction fuel with
  | zero =>
    intro g stack hm
    exact absurd hm (by omega)
  | succ fuel ih =>
    intro g stack hm
    cases stack with
    | nil => rw [fillLoop_nil]; rfl
    | cons e rest =>
      obtain ⟨cx, cy⟩ := e
      rcases hnb : ((g.set cx cy c).1).neighbours cx cy with _ | nbrs
      · rw [fillLoop_cons_none c g cx cy rest hnb]
        unfold fillLoopFuel
        rw [hnb]
      · rw [fillLoop_cons_some c g cx cy rest nbrs hnb]
        have hmeas := stackMeasure_decreases c g cx cy rest nbrs hnb
        have := ih ((g.set cx cy c).1)
          ((nbrs.filter (liveB ((g.set cx cy c).1) c)).reverse ++ rest) (by omega)
        unfold fillLoopFuel
        rw [hnb]
        exact this

/-- Fuel-indexed form of Rust `slice::chunks(w)` (the fuel, instantiated with
the list length in `chunks`, only makes the recursion structural). -/
def chunksF : Nat → Nat → List Char → List (List Char)
  | 0, _, _ => []
  | _ + 1, _, [] => []
  | f + 1, w, a :: l => (a :: l.take (w - 1)) :: chunksF f w (l.drop (w - 1))

/-- Rust `slice::chunks(w)`: successive pieces of `w` elements, the last piece
possibly shorter.  Only meaningful for `w ≥ 1`; Rust panics on `w == 0` and
`Grid.to_string` guards that case before calling this. -/
def chunks (w : Nat) (l : List Char) : List (List Char) :=
  chunksF l.length w l

theorem chunksF_congr :
    ∀ (f1 : Nat) (f2 : Nat) (w : Nat) (l : List Char), l.length ≤ f1 → l.length ≤ f2 →
      chunksF f1 w l = chunksF f2 w l := by
  intro f1
  induction f1 with
  | zero =>
    intro f2 w l h1 h2
    have : l = [] := List.eq_nil_of_length_eq_zero (by omega)
    subst this
    cases f2 <;> rfl
  | succ f1 ih =>
    intro f2 w l h1 h2
    cases l with
    | nil => cases f2 <;> rfl
    | cons a l' =>
      cases f2 with
      | zero => simp at h2
      | succ f2 =>
        show (a :: l'.take (w - 1)) :: chunksF f1 w (l'.drop (w - 1)) =
          (a :: l'.take (w - 1)) :: chunksF f2 w (l'.drop (w - 1))
        have hd : (l'.drop (w - 1)).length ≤ l'.length := by simp
        simp only [List.length_cons] at h1 h2
        rw [ih f2 w (l'.drop (w - 1)) (by omega) (by omega)]

theorem chunks_nil (w : Nat) : chunks w [] = [] := rfl

theorem chunks_cons (w : Nat) (a : Char) (l : List Char) :
    chunks w (a :: l) = (a :: l.take (w - 1)) :: chunks w (l.drop (w - 1)) := by
  show (a :: l.take (w - 1)) :: chunksF l.length w (l.drop (w - 1)) =
    (a :: l.take (w - 1)) :: chunksF (l.drop (w - 1)).length w (l.drop (w - 1))
  have hd : (l.drop (w - 1)).length ≤ l.length := by simp
  rw [chunksF_congr l.length (l.drop (w - 1)).length w (l.drop (w - 1)) hd le_rfl]

theorem chunks_flatten (w : Nat) :
    ∀ (n : Nat) (l : List Char), l.length ≤ n → (chunks w l).flatten = l := by
  intro n
  induction n with
  | zero =>
    intro l h
    have : l = [] := List.eq_nil_of_length_eq_zero (by omega)
    subst this
    rfl
  | succ n ih =>
    intro l h
    cases l with
    | nil => rfl
    | cons a l' =>
      rw [chunks_cons]
      simp only [List.flatten_cons]
      rw [ih (l'.drop (w - 1)) (by simp only [List.length_cons] at h; simp; omega)]
      simp [List.take_append_drop]

theorem chunks_mem_subset (w : Nat) :
    ∀ (n : Nat) (l : List Char) (ch : List Char), l.length ≤ n → ch ∈ chunks w l →
      ∀ a ∈ ch, a ∈ l := by
  intro n
  induction n with
  | zero =>
    intro l ch h hch
    have : l = [] := List.eq_nil_of_length_eq_zero (by omega)
    subst this
    simp [chunks_nil] at hch
  | succ n ih =>
    intro l ch h hch a ha
    cases l with
    | nil => simp [chunks_nil] at hch
    | cons b l' =>
      rw [chunks_cons] at hch
      rcases List.mem_cons.mp hch with hc | hc
      · subst hc
        rcases List.mem_cons.mp ha with h1 | h1
        · rw [h1]; exact List.mem_cons_self _ _
        · exact List.mem_cons_of_mem _ (List.take_subset _ _ h1)
      · have := ih (l'.drop (w - 1)) ch (by simp only [List.length_cons] at h; simp; omega) hc a ha
        exact List.mem_cons_of_mem _ (List.drop_subset _ _ this)

theorem chunks_head (w : Nat) (l : List Char) (hw : 1 ≤ w) (hlen : w ≤ l.length) :
    ∃ t, chunks w l = l.take w :: t := by
  cases l with
  | nil => simp at hlen; omega
  | cons a l' =>
    rw [chunks_cons]
    refine ⟨chunks w (l'.drop (w - 1)), ?_⟩
    obtain ⟨k, rfl⟩ : ∃ k, w = k + 1 := ⟨w - 1, by omega⟩
    simp [List.take_succ_cons]

/-- Helper for Rust `str::lines`: strip one carriage return immediately before
a line feed. -/
def stripTrailingCr (l : List Char) : List Char :=
  match l.getLast? with
  | some '\r' => l.dropLast
  | _ => l

/-- Worker for Rust `str::lines`: `acc` is the reversed current line. -/
def rustLinesAux (acc : List Char) : List Char → List (List Char)
  | [] => if acc.isEmpty then [] else [acc.reverse]
  | ch :: rest =>
    if ch = '\n' then stripTrailingCr acc.reverse :: rustLinesAux [] rest
    else rustLinesAux (ch :: acc) rest

/-- Rust `str::lines`: lines are split at `'\n'` (a `'\r'` immediately before
the `'\n'` is stripped), the final line ending is optional, and an empty input
yields no lines at all. -/
def rustLines (s : List Char) : List (List Char) :=
  rustLinesAux [] s

/-- Byte length of a string, as Rust `str::len`; `Grid::from` takes the width
from the first line's byte length, not from its character count. -/
def utf8Len (l : List Char) : Nat :=
  (l.map Char.utf8Size).sum

/-- Rust `Display::fmt` / `to_string()`: fold the `width`-sized chunks of the
buffer into a string, appending a newline after every chunk.  `slice::chunks`
panics when the chunk size (the grid's width) is zero, hence the `none`. -/
def Grid.to_string (g : Grid) : Option (List Char) :=
  if g.width = 0 then none
  else some ((chunks g.width g.tiles).foldl (fun acc row => acc ++ row ++ ['\n']) [])

/-- Rust `Grid::from(text)`: the tiles are the concatenation of the lines'
characters, the width is the first line's byte length; the source's
`lines().next().unwrap()` panics when the text has no lines (empty input). -/
def Grid.fromText (s : List Char) : Option Grid :=
  match rustLines s with
  | [] => none
  | l :: ls => some { tiles := (l :: ls).foldl (fun acc v => acc ++ v) [], width := utf8Len l }

theorem fromText_cons (s : List Char) (l : List Char) (ls : List (List Char))
    (h : rustLines s = l :: ls) :
    Grid.fromText s =
      some { tiles := (l :: ls).foldl (fun acc v => acc ++ v) [], width := utf8Len l } := by
  unfold Grid.fromText
  rw [h]

theorem fromText_nil (s : List Char) (h : rustLines s = []) : Grid.fromText s = none := by
  unfold Grid.fromText
  rw [h]

theorem foldl_append_eq_flatten {α : Type} :
    ∀ (rows : List (List α)) (a : List α),
      rows.foldl (fun acc v => acc ++ v) a = a ++ rows.flatten := by
  intro rows
  induction rows with
  | nil => intro a; simp
  | cons r rs ih =>
    intro a
    simp only [List.foldl_cons, List.flatten_cons, ih, List.append_assoc]

theorem foldl_render_eq_flatten :
    ∀ (rows : List (List Char)) (a : List Char),
      rows.foldl (fun acc row => acc ++ row ++ ['\n']) a =
        a ++ (rows.map (fun r => r ++ ['\n'])).flatten := by
  intro rows
  induction rows with
  | nil => intro a; simp
  | cons r rs ih =>
    intro a
    simp only [List.foldl_cons, List.map_cons, List.flatten_cons]
    rw [ih]
    simp [List.append_assoc]

theorem rustLinesAux_newline (acc rest : List Char) :
    rustLinesAux acc ('\n' :: rest) = stripTrailingCr acc.reverse :: rustLinesAux [] rest := by
  simp [rustLinesAux]

theorem rustLinesAux_no_newline :
    ∀ (r : List Char), '\n' ∉ r → ∀ (acc s' : List Char),
      rustLinesAux acc (r ++ s') = rustLinesAux (r.reverse ++ acc) s' := by
  intro r
  induction r with
  | nil => intro _ acc s'; simp
  | cons ch r' ih =>
    intro hn acc s'
    have hch : ch ≠ '\n' := fun hc => hn (hc ▸ List.mem_cons_self _ _)
    show rustLinesAux acc (ch :: (r' ++ s')) = _
    rw [show rustLinesAux acc (ch :: (r' ++ s')) = rustLinesAux (ch :: acc) (r' ++ s') by
      simp [rustLinesAux, hch]]
    rw [ih (fun hm => hn (List.mem_cons_of_mem _ hm)) (ch :: acc) s']
    simp [List.append_assoc]

theorem getLast?_ne_of_not_mem (l : List Char) (a : Char) (h : a ∉ l) :
    l.getLast? ≠ some a := by
  intro hc
  have hmem : a ∈ l.getLast? := by rw [Option.mem_def]; exact hc
  obtain ⟨hne, heq⟩ := List.mem_getLast?_eq_getLast hmem
  exact h (heq ▸ List.getLast_mem hne)

theorem stripTrailingCr_no_cr (l : List Char) (h : l.getLast? ≠ some '\r') :
    stripTrailingCr l = l := by
  unfold stripTrailingCr
  split
  · simp_all
  · rfl

theorem rustLines_of_rows :
    ∀ (rows : List (List Char)), (∀ r ∈ rows, '\n' ∉ r ∧ '\r' ∉ r) →
      rustLines ((rows.map (fun r => r ++ ['\n'])).flatten) = rows := by
  intro rows
  induction rows with
  | nil => intro _; rfl
  | cons r rs ih =>
    intro hall
    have hr := hall r (List.mem_cons_self _ _)
    simp only [List.map_cons, List.flatten_cons]
    unfold rustLines
    rw [List.append_assoc, List.singleton_append]
    rw [rustLinesAux_no_newline r hr.1 [] ('\n' :: (rs.map (fun r => r ++ ['\n'])).flatten)]
    rw [rustLinesAux_newline]
    rw [List.append_nil, List.reverse_reverse]
    rw [stripTrailingCr_no_cr r (getLast?_ne_of_not_mem r '\r' hr.2)]
    have := ih (fun r' hr' => hall r' (List.mem_cons_of_mem _ hr'))
    unfold rustLines at this
    rw [this]

theorem utf8Len_of_ascii :
    ∀ (l : List Char), (∀ ch ∈ l, ch.utf8Size = 1) → utf8Len l = l.length := by
  intro l
  induction l with
  | nil => intro _; rfl
  | cons a l' ih =>
    intro h
    unfold utf8Len at ih ⊢
    simp only [List.map_cons, List.sum_cons, List.length_cons]
    rw [h a (List.mem_cons_self _ _), ih (fun ch hch => h ch (List.mem_cons_of_mem _ hch))]
    omega

/-- Serialize-then-parse round trip, under the side conditions the source
actually needs: positive width, at least one full row, an ASCII first row (the
parser measures width in bytes), and no newline or carriage return tiles (the
parser would split rows at them). -/
theorem roundtrip_holds (g : Grid) (hw : 1 ≤ g.width) (hlen : g.width ≤ g.tiles.length)
    (hascii : ∀ ch ∈ g.tiles.take g.width, ch.utf8Size = 1)
    (hnl : '\n' ∉ g.tiles) (hcr : '\r' ∉ g.tiles) :
    ∃ s, g.to_string = some s ∧ Grid.fromText s = some g := by
  have hw0 : ¬ g.width = 0 := by omega
  refine ⟨_, by unfold Grid.to_string; rw [if_neg hw0], ?_⟩
  have hrows : ∀ r ∈ chunks g.width g.tiles, '\n' ∉ r ∧ '\r' ∉ r := by
    intro r hr
    constructor
    · intro hmem
      exact hnl (chunks_mem_subset g.width g.tiles.length g.tiles r le_rfl hr '\n' hmem)
    · intro hmem
      exact hcr (chunks_mem_subset g.width g.tiles.length g.tiles r le_rfl hr '\r' hmem)
  obtain ⟨t, hhead⟩ := chunks_head g.width g.tiles hw hlen
  have hs : rustLines ((chunks g.width g.tiles).foldl (fun acc row => acc ++ row ++ ['\n']) [])
      = g.tiles.take g.width :: t := by
    rw [foldl_render_eq_flatten, List.nil_append, rustLines_of_rows _ hrows, hhead]
  rw [fromText_cons _ _ _ hs]
  have htiles : (g.tiles.take g.width :: t).foldl (fun acc v => acc ++ v) [] = g.tiles := by
    rw [foldl_append_eq_flatten, List.nil_append, ← hhead]
    exact chunks_flatten g.width g.tiles.length g.tiles le_rfl
  have hwidth : utf8Len (g.tiles.take g.width) = g.width := by
    rw [utf8Len_of_ascii _ hascii]
    simp
    omega
  rw [htiles, hwidth]

/-- One-step evaluator for the work loop, convenient for tracing concrete
flood fills: supply the grid after the `set`, the neighbour list, and the new
stack, each checkable by `decide`. -/
theorem fillLoop_step_eval (c : Char) (g g1 : Grid) (cx cy : Nat)
    (rest stack1 nbrs : List (Nat × Nat))
    (h1 : (g.set cx cy c).1 = g1)
    (h2 : g1.neighbours cx cy = some nbrs)
    (h3 : (nbrs.filter (liveB g1 c)).reverse ++ rest = stack1) :
    fillLoop c g ((cx, cy) :: rest) = fillLoop c g1 stack1 := by
  subst h1
  rw [fillLoop_cons_some c g cx cy rest nbrs h2, h3]

/-- Claim C1 (amended: the start coordinate must be in bounds): for an
in-bounds start, `fill(start_x, start_y, c)` succeeds and sets to `c` exactly
the connected region — the start tile together with every tile reachable from
it by a chain of 8-directional neighbour steps in which each visited tile,
before being overwritten, holds a character different from `c` (the inductive
`specReach`) — while every in-bounds tile outside this region keeps its
previous character. -/
theorem claim_C1_fill_fills_connected_region (g : Grid) (x y : Nat) (c : Char)
    (hx : x < g.width) (hy : y < g.height) :
    ∃ g', g.fill x y c = some g' ∧ g'.width = g.width ∧ g'.tiles.length = g.tiles.length ∧
      ∀ i j, i < g.width → j < g.height →
        (specReach g c (x, y) (i, j) → g'.get i j = some c) ∧
        (¬ specReach g c (x, y) (i, j) → g'.get i j = g.get i j) :=
  fill_spec g x y c hx hy

theorem claim_C1_witness :
    0 < 2 ∧
    (∃ g', (⟨['a', 'b'], 2⟩ : Grid).fill 0 0 'z' = some g' ∧
      g'.width = 2 ∧ g'.tiles.length = 2 ∧
      ∀ i j, i < 2 → j < 1 →
        (specReach ⟨['a', 'b'], 2⟩ 'z' (0, 0) (i, j) → g'.get i j = some 'z') ∧
        (¬ specReach ⟨['a', 'b'], 2⟩ 'z' (0, 0) (i, j) →
          g'.get i j = (⟨['a', 'b'], 2⟩ : Grid).get i j)) :=
  ⟨by decide, claim_C1_fill_fills_connected_region ⟨['a', 'b'], 2⟩ 0 0 'z' (by decide) (by decide)⟩

/-- Claim C1 (counterexample): for the out-of-bounds start `(2, 0)` on the 2×2
grid with tiles "abcd", the claim fails: `(1, 0)` lies in the claimed region
(one left-neighbour step from the start onto 'b' ≠ 'z') yet keeps its old
character — the code instead writes the aliased buffer slot of tile `(0, 1)`
and stops. -/
theorem claim_C1_counterexample :
    ¬ ∃ g', (⟨['a', 'b', 'c', 'd'], 2⟩ : Grid).fill 2 0 'z' = some g' ∧
      ∀ i j, i < 2 → j < 2 →
        ((specReach ⟨['a', 'b', 'c', 'd'], 2⟩ 'z' (2, 0) (i, j) → g'.get i j = some 'z') ∧
         (¬ specReach ⟨['a', 'b', 'c', 'd'], 2⟩ 'z' (2, 0) (i, j) →
           g'.get i j = (⟨['a', 'b', 'c', 'd'], 2⟩ : Grid).get i j)) := by
  rintro ⟨g', hfill, hall⟩
  have htrace : (⟨['a', 'b', 'c', 'd'], 2⟩ : Grid).fill 2 0 'z' = some ⟨['a', 'b', 'z', 'd'], 2⟩ := by
    unfold Grid.fill
    rw [fillLoop_step_eval 'z' ⟨['a', 'b', 'c', 'd'], 2⟩ ⟨['a', 'b', 'z', 'd'], 2⟩ 2 0
      [] [] [(2, 1)] (by decide) (by decide) (by decide)]
    exact fillLoop_nil 'z' ⟨['a', 'b', 'z', 'd'], 2⟩
  rw [htrace] at hfill
  injection hfill with hg
  subst hg
  have hreach : specReach ⟨['a', 'b', 'c', 'd'], 2⟩ 'z' (2, 0) (1, 0) :=
    specReach.step specReach.refl (by decide) ⟨'b', by decide, by decide⟩
  have hzc := (hall 1 0 (by omega) (by omega)).1 hreach
  exact absurd hzc (by decide)

/-- Claim C2 (counterexample): on the 2×1 grid "ab", the start tile `(0, 0)`
already holds the fill character 'a', yet `fill(0, 0, 'a')` is not a no-op: it
still pushes the neighbour `(1, 0)` (whose 'b' differs from 'a') and fills it,
so the grid changes to "aa". -/
theorem claim_C2_counterexample :
    (⟨['a', 'b'], 2⟩ : Grid).get 0 0 = some 'a' ∧
    (⟨['a', 'b'], 2⟩ : Grid).fill 0 0 'a' = some ⟨['a', 'a'], 2⟩ ∧
    (⟨['a', 'a'], 2⟩ : Grid) ≠ ⟨['a', 'b'], 2⟩ := by
  refine ⟨by decide, ?_, by decide⟩
  unfold Grid.fill
  rw [fillLoop_step_eval 'a' ⟨['a', 'b'], 2⟩ ⟨['a', 'b'], 2⟩ 0 0
    [] [(1, 0)] [(1, 0)] (by decide) (by decide) (by decide)]
  rw [fillLoop_step_eval 'a' ⟨['a', 'b'], 2⟩ ⟨['a', 'a'], 2⟩ 1 0
    [] [] [(0, 0)] (by decide) (by decide) (by decide)]
  exact fillLoop_nil 'a' ⟨['a', 'a'], 2⟩

/-- Claim C2 (amended): `fill(x, y, c)` on a tile that already holds `c`
leaves the grid unchanged only when, additionally, no neighbour listed by
`neighbours(x, y)` passes the push guard (each is out of the buffer or already
holds `c`); the single `set` then rewrites the same character and nothing is
pushed. -/
theorem claim_C2_degenerate_fill_noop (g : Grid) (x y : Nat) (c : Char)
    (L : List (Nat × Nat))
    (hstart : g.get x y = some c)
    (hnb : g.neighbours x y = some L)
    (hdead : L.filter (liveB g c) = []) :
    g.fill x y c = some g := by
  have hset : (g.set x y c).1 = g := by
    apply set_noop_of_c
    rw [← get_eq_getElem?]
    exact hstart
  unfold Grid.fill
  rw [fillLoop_step_eval c g g x y [] [] L hset hnb (by rw [hdead]; rfl)]
  exact fillLoop_nil c g

theorem claim_C2_witness :
    (⟨['a'], 1⟩ : Grid).get 0 0 = some 'a' ∧
    (⟨['a'], 1⟩ : Grid).neighbours 0 0 = some [] ∧
    ([] : List (Nat × Nat)).filter (liveB ⟨['a'], 1⟩ 'a') = [] ∧
    (⟨['a'], 1⟩ : Grid).fill 0 0 'a' = some ⟨['a'], 1⟩ :=
  ⟨by decide, by decide, by decide,
    claim_C2_degenerate_fill_noop ⟨['a'], 1⟩ 0 0 'a' [] (by decide) (by decide) (by decide)⟩

/-- Claim C3 (code bug, evaluated at the failing input): on the 2×2 grid with
tiles "abcd", the coordinate `(2, 0)` has `x = width`, yet `get(2, 0)` returns
the character of the aliased slot `pos = 0*2+2 = 2` — the tile of logical
coordinate `(0, 1)` — and `set(2, 0, 'z')` overwrites that slot and returns
true, contradicting the documented out-of-bounds contract. -/
theorem claim_C3_bounds_check_aliases :
    (⟨['a', 'b', 'c', 'd'], 2⟩ : Grid).width ≤ 2 ∧
    (⟨['a', 'b', 'c', 'd'], 2⟩ : Grid).get 2 0 = some 'c' ∧
    (⟨['a', 'b', 'c', 'd'], 2⟩ : Grid).set 2 0 'z' = (⟨['a', 'b', 'z', 'd'], 2⟩, true) :=
  ⟨by decide, by decide, by decide⟩

/-- Claim C4 (confirmed): the bounds check is purely arithmetic — `get`
returns exactly the buffer lookup at `pos = y*width + x` (a character iff
`pos < tiles.len()`), and `set` writes slot `pos` and returns true exactly
when `pos < tiles.len()`, otherwise changes nothing and returns false. -/
theorem claim_C4_purely_arithmetic_bounds :
    ∀ (g : Grid) (x y : Nat) (v : Char),
      g.get x y = g.tiles[y * g.width + x]? ∧
      (g.set x y v).2 = decide (y * g.width + x < g.tiles.length) ∧
      (g.set x y v).1.tiles =
        (if y * g.width + x < g.tiles.length then g.tiles.set (y * g.width + x) v
         else g.tiles) := by
  intro g x y v
  refine ⟨get_eq_getElem? g x y, ?_, ?_⟩
  · unfold Grid.set Grid.cord_to_pos
    by_cases h : y * g.width + x < g.tiles.length
    · rw [if_pos h]
      simp [h]
    · rw [if_neg h]
      simp [h]
  · unfold Grid.set Grid.cord_to_pos
    by_cases h : y * g.width + x < g.tiles.length
    · rw [if_pos h, if_pos h]
    · rw [if_neg h, if_neg h]

/-- Claim C5 (confirmed): on a grid with `width ≥ 1` and `height ≥ 1`, for any
in-bounds coordinate `neighbours(x, y)` returns exactly the in-bounds members
of the 8 adjacent coordinates in the fixed order up, right, down, left,
down-right, up-right, up-left, down-left, with out-of-bounds directions
omitted (`specNeighbours`, modelled from the spec's wording). -/
theorem claim_C5_neighbours_order (g : Grid) (x y : Nat)
    (hw : 1 ≤ g.width) (hh : 1 ≤ g.height) (hx : x < g.width) (hy : y < g.height) :
    g.neighbours x y = some (specNeighbours g.width g.height x y) :=
  neighbours_inBounds_eq g x y hx hy

theorem claim_C5_witness :
    (Grid.filled_with 3 3 '#').neighbours 1 1 =
      some (specNeighbours (Grid.filled_with 3 3 '#').width (Grid.filled_with 3 3 '#').height 1 1) ∧
    specNeighbours 3 3 1 1 = [(1, 0), (2, 1), (1, 2), (0, 1), (2, 2), (2, 0), (0, 0), (0, 2)] ∧
    specNeighbours 3 3 0 0 = [(1, 0), (0, 1), (1, 1)] :=
  ⟨claim_C5_neighbours_order (Grid.filled_with 3 3 '#') 1 1
      (by decide) (by decide) (by decide) (by decide),
    by decide, by decide⟩

/-- Claim C6 (counterexample): the out-of-range coordinate `(2, 1)` of the 2×2
grid with tiles "abcd" has `x = width`, which slips past the code's strict
`x > width` guard: `neighbours(2, 1)` returns `[(2, 0)]`, not the empty
sequence the claim demands. -/
theorem claim_C6_counterexample :
    (⟨['a', 'b', 'c', 'd'], 2⟩ : Grid).width ≤ 2 ∧
    (⟨['a', 'b', 'c', 'd'], 2⟩ : Grid).neighbours 2 1 = some [(2, 0)] ∧
    some [(2, 0)] ≠ some ([] : List (Nat × Nat)) :=
  ⟨by decide, by decide, by decide⟩

/-- Claim C6 (amended): on a grid with `width ≥ 1`, `neighbours(x, y)` returns
the empty sequence for every coordinate that is strictly beyond the
dimensions, `x > width` or `y > height` — the boundary cases `x = width` and
`y = height` slip past the guard and are excluded. -/
theorem claim_C6_beyond_bounds_empty (g : Grid) (x y : Nat)
    (hw : 1 ≤ g.width) (h : g.width < x ∨ g.height < y) :
    g.neighbours x y = some [] := by
  unfold Grid.neighbours
  rw [if_neg (by omega), if_pos (by omega)]

theorem claim_C6_witness :
    1 ≤ (⟨['a', 'b'], 2⟩ : Grid).width ∧
    (⟨['a', 'b'], 2⟩ : Grid).neighbours 5 7 = some [] :=
  ⟨by decide, claim_C6_beyond_bounds_empty ⟨['a', 'b'], 2⟩ 5 7 (by decide) (by decide)⟩

/-- Claim C7 (counterexample): the 1×1 grid holding the two-byte character 'é'
serializes to "é\n", but re-parsing takes the width from the first line's byte
length: the parsed grid has width 2, not 1, so the round trip does not yield
an equal grid. -/
theorem claim_C7_counterexample :
    (⟨['é'], 1⟩ : Grid).to_string = some ['é', '\n'] ∧
    Grid.fromText ['é', '\n'] = some ⟨['é'], 2⟩ ∧
    (⟨['é'], 2⟩ : Grid) ≠ ⟨['é'], 1⟩ :=
  ⟨by decide, by decide, by decide⟩

/-- Claim C7 (amended): serializing and re-parsing yields an equal grid for
every grid with positive width, at least one full row, a first row of
single-byte (ASCII) characters, and no newline or carriage-return tiles; the
excluded cases each break the round trip (zero width panics `chunks`, a short
first row or multi-byte first-row characters change the parsed width, newline
or carriage-return tiles change the parsed rows). -/
theorem claim_C7_roundtrip (g : Grid) (hw : 1 ≤ g.width) (hlen : g.width ≤ g.tiles.length)
    (hascii : ∀ ch ∈ g.tiles.take g.width, ch.utf8Size = 1)
    (hnl : '\n' ∉ g.tiles) (hcr : '\r' ∉ g.tiles) :
    ∃ s, g.to_string = some s ∧ Grid.fromText s = some g :=
  roundtrip_holds g hw hlen hascii hnl hcr

theorem claim_C7_witness :
    (1 : Nat) ≤ 2 ∧
    (∃ s, (⟨['a', 'b', 'c', 'd'], 2⟩ : Grid).to_string = some s ∧
      Grid.fromText s = some ⟨['a', 'b', 'c', 'd'], 2⟩) :=
  ⟨by decide, claim_C7_roundtrip ⟨['a', 'b', 'c', 'd'], 2⟩
    (by decide) (by decide) (by decide) (by decide) (by decide)⟩

/-- Claim C8 (confirmed): flood fill is idempotent — whenever
`fill(x, y, c)` completes (no panic) with result grid `g1`, running
`fill(x, y, c)` on `g1` completes and leaves `g1` unchanged. -/
theorem claim_C8_fill_idempotent (g : Grid) (x y : Nat) (c : Char) (g1 : Grid)
    (h : g.fill x y c = some g1) : g1.fill x y c = some g1 :=
  fill_idem g x y c g1 h

theorem claim_C8_witness :
    (⟨['a', 'b'], 2⟩ : Grid).fill 0 0 'z' = some ⟨['z', 'z'], 2⟩ ∧
    (⟨['z', 'z'], 2⟩ : Grid).fill 0 0 'z' = some ⟨['z', 'z'], 2⟩ := by
  have h : (⟨['a', 'b'], 2⟩ : Grid).fill 0 0 'z' = some ⟨['z', 'z'], 2⟩ := by
    unfold Grid.fill
    rw [fillLoop_step_eval 'z' ⟨['a', 'b'], 2⟩ ⟨['z', 'b'], 2⟩ 0 0
      [] [(1, 0)] [(1, 0)] (by decide) (by decide) (by decide)]
    rw [fillLoop_step_eval 'z' ⟨['z', 'b'], 2⟩ ⟨['z', 'z'], 2⟩ 1 0
      [] [] [(0, 0)] (by decide) (by decide) (by decide)]
    exact fillLoop_nil 'z' ⟨['z', 'z'], 2⟩
  exact ⟨h, claim_C8_fill_idempotent ⟨['a', 'b'], 2⟩ 0 0 'z' ⟨['z', 'z'], 2⟩ h⟩

/-- Claim C9 (confirmed): for every grid, start coordinate (in or out of
bounds) and fill character, the work-stack loop of `fill` performs only
finitely many pop iterations: within `stackMeasure + 1` pops the fuel-indexed
loop has finished (either the stack emptied, or a `neighbours` panic ended the
run) and agrees with `fill`. -/
theorem claim_C9_fill_terminates (g : Grid) (x y : Nat) (c : Char) :
    fillLoopFuel c (stackMeasure c g [(x, y)] + 1) g [(x, y)] = some (g.fill x y c) :=
  fillLoopFuel_sufficient c _ g [(x, y)] (by omega)

/-- Claim C10 (confirmed): the mutating operations preserve the grid's
dimensions — `set`, with any arguments whatsoever, keeps the `width` field and
the tile-buffer length, hence `width()` and `height()` unchanged; and so does
every `fill` that completes (a `fill` that panics inside `neighbours` returns
no grid at all). -/
theorem claim_C10_dims_preserved (g : Grid) (x y : Nat) (v c : Char) :
    ((g.set x y v).1.width = g.width ∧ (g.set x y v).1.tiles.length = g.tiles.length ∧
      (g.set x y v).1.height = g.height) ∧
    ∀ g1, g.fill x y c = some g1 →
      g1.width = g.width ∧ g1.tiles.length = g.tiles.length ∧ g1.height = g.height := by
  have hds := set_dims g x y v
  refine ⟨⟨hds.1, hds.2, ?_⟩, ?_⟩
  · unfold Grid.height
    rw [hds.1, hds.2]
  · intro g1 hfill
    unfold Grid.fill at hfill
    have hd1 := fillLoop_dims c (stackMeasure c g [(x, y)]) g [(x, y)] le_rfl g1 hfill
    refine ⟨hd1.1, hd1.2, ?_⟩
    unfold Grid.height
    rw [hd1.1, hd1.2]

theorem claim_C10_witness :
    (((⟨['a'], 1⟩ : Grid).set 0 0 'q').1.width = 1 ∧
      ((⟨['a'], 1⟩ : Grid).set 0 0 'q').1.tiles.length = 1 ∧
      ((⟨['a'], 1⟩ : Grid).set 0 0 'q').1.height = 1) ∧
    (⟨['a'], 1⟩ : Grid).fill 0 0 'z' = some ⟨['z'], 1⟩ ∧
    (⟨['z'], 1⟩ : Grid).width = 1 ∧ (⟨['z'], 1⟩ : Grid).tiles.length = 1 ∧
    (⟨['z'], 1⟩ : Grid).height = 1 := by
  have h : (⟨['a'], 1⟩ : Grid).fill 0 0 'z' = some ⟨['z'], 1⟩ := by
    unfold Grid.fill
    rw [fillLoop_step_eval 'z' ⟨['a'], 1⟩ ⟨['z'], 1⟩ 0 0
      [] [] [] (by decide) (by decide) (by decide)]
    exact fillLoop_nil 'z' ⟨['z'], 1⟩
  have hmain := claim_C10_dims_preserved ⟨['a'], 1⟩ 0 0 'q' 'z'
  exact ⟨hmain.1, h, hmain.2 ⟨['z'], 1⟩ h⟩
